import Mathlib

/-!
Shallow embedding of the cereal pipeline (honno/pipeline-testing-reference).

The meaningful logic lives in `_versions/v3_pipeline.py`:

* `preprocess_cereals` (the Normalizer): lowercases the column headers in
  place (`df.columns = df.columns.str.lower()`), then, if no `name` column
  exists, renames `brand` to `name` (`df.rename({"brand": "name"}, axis=1)`,
  which returns a fresh frame), and otherwise raises
  `ValueError` (message: df does not contain column name).
* `find_highest_protein_cereal` (the Selector):
  `df.sort_values(["protein", "calories"], ascending=False)` followed by
  `sorted_df.iloc[0]["name"]`.

`_versions/v0_pipeline.py` carries the earlier Selector that sorts by
`protein` alone.

A DataFrame is modelled as an ordered list of column headers together with
the list of rows, each row holding one value per column positionally.
Cell values are strings or integers (the numeric dtype of the dataset).
Python exceptions are modelled by an `Except` result; the in-place header
mutation performed by the Normalizer is modelled by returning the final
state of the table of the caller alongside the result.
-/

namespace CerealPipeline

/-- A cell of the table: pandas object (string) or integer dtype. -/
inductive Value where
  | str : String → Value
  | num : Int → Value
deriving DecidableEq, Repr

/-- In-memory model of the `pd.DataFrame` used by the pipeline: ordered
column headers plus rows, each row listing one cell per column. -/
structure CerealTable where
  cols : List String
  rows : List (List Value)
deriving DecidableEq, Repr

/-- Python exceptions raised by the pipeline code. The design document
groups all of them under the single kind `SchemaError`. -/
inductive Err where
  | valueError : String → Err
  | keyError : String → Err
  | typeError : Err
  | indexError : Err
deriving DecidableEq, Repr

/-- Model of Python `str.lower` (`df.columns.str.lower()`), character by
character on the ASCII letters; `Char.toLower` maps `A`–`Z` to `a`–`z` and
leaves everything else unchanged, exactly as Python does on this range. -/
def pyLower (s : String) : String :=
  String.mk (s.data.map Char.toLower)

/-- Model of Python `str.upper` (`df.columns.str.upper()` in the tests),
character by character on the ASCII letters. -/
def pyUpper (s : String) : String :=
  String.mk (s.data.map Char.toUpper)

/-- Effect of `df.columns = df.columns.str.lower()`: every header is
lowercased, rows are untouched. -/
def lowerColumns (t : CerealTable) : CerealTable :=
  ⟨t.cols.map pyLower, t.rows⟩

/-- Effect of `df.columns = df.columns.str.upper()` (test construction). -/
def upperColumns (t : CerealTable) : CerealTable :=
  ⟨t.cols.map pyUpper, t.rows⟩

/-- Effect of `df.rename({src: dst}, axis=1)`: every column header equal
to `src` is replaced by `dst`; positions and rows are unchanged. -/
def renameColumns (t : CerealTable) (src dst : String) : CerealTable :=
  ⟨t.cols.map (fun c => if c = src then dst else c), t.rows⟩

/-- `preprocess_cereals` from `v3_pipeline.py`.

The first component of the result is the final state of the DataFrame
object held by the caller: `df.columns = df.columns.str.lower()` mutates it in
place, while the later `df.rename(...)` only rebinds the local `df` to a
copy. The second component is the returned table or the raised exception.

    df.columns = df.columns.str.lower()
    if "name" not in df.columns:
        if "brand" in df.columns:
            df = df.rename({"brand": "name"}, axis=1)
        else:
            raise ValueError(message that df does not contain column name)
    return df
-/
def preprocess_cereals (t : CerealTable) : CerealTable × Except Err CerealTable :=
  let t1 := lowerColumns t
  if t1.cols.contains "name" then
    (t1, .ok t1)
  else if t1.cols.contains "brand" then
    (t1, .ok (renameColumns t1 "brand" "name"))
  else
    (t1, .error (.valueError "df does not contain column name"))


/-! ### The Selector

`find_highest_protein_cereal` runs
`df.sort_values(["protein", "calories"], ascending=False)` and reads
`sorted_df.iloc[0]["name"]`. pandas sorts by a list of keys with numpy
`lexsort`, a stable sort; a stable sort by a key function is exactly the
sort of the row indices by (key, original position), which is how the
permutation of rows is modelled here. -/

/-- Position of the column labelled `c` (pandas label lookup). -/
def colIndex (t : CerealTable) (c : String) : Option Nat :=
  t.cols.findIdx? (· == c)

/-- Numeric content of a cell; a non-numeric cell in a sort column makes
the numpy comparison raise `TypeError`. -/
def asNum : Value → Option Int
  | .num n => some n
  | .str _ => none

/-- The `(protein, calories)` sort key of one row. -/
def rowKey (pj cj : Nat) (r : List Value) : Option (Int × Int) := do
  let pv ← r[pj]?
  let cv ← r[cj]?
  let p ← asNum pv
  let c ← asNum cv
  pure (p, c)

/-- Sort keys of all rows. -/
def rowKeys (pj cj : Nat) : List (List Value) → Option (List (Int × Int))
  | [] => some []
  | r :: rs =>
    match rowKey pj cj r, rowKeys pj cj rs with
    | some k, some ks => some (k :: ks)
    | _, _ => none

/-- Descending comparison produced by `ascending=False` on the key list
`["protein", "calories"]`: lexicographic greater-or-equal on the pair. -/
def keyGE (a b : Int × Int) : Bool :=
  decide (b.1 < a.1) || (decide (a.1 = b.1) && decide (b.2 ≤ a.2))

/-- Descending comparison of the single key `"protein"` (v0 Selector). -/
def intGE (a b : Int) : Bool :=
  decide (b ≤ a)

/-- Order of two row indices under a stable descending sort by `keys`:
index `i` is placed before index `j` when its key is strictly greater,
or the keys tie and `i` occurs first in the table. -/
def idxLE {κ : Type} (kge : κ → κ → Bool) (d : κ) (keys : List κ)
    (i j : Nat) : Bool :=
  kge (keys.getD i d) (keys.getD j d) &&
    (!kge (keys.getD j d) (keys.getD i d) || decide (i ≤ j))

/-- Permutation of the row indices produced by
`df.sort_values(["protein", "calories"], ascending=False)`. -/
def sortedRowOrder (keys : List (Int × Int)) : List Nat :=
  (List.range keys.length).mergeSort (idxLE keyGE (0, 0) keys)

/-- `find_highest_protein_cereal` from `v3_pipeline.py`:

    sorted_df = df.sort_values(["protein", "calories"], ascending=False)
    return sorted_df.iloc[0]["name"]

Failures are the pandas exceptions: `KeyError` for a missing sort or
`name` column, `TypeError` for a non-numeric sort cell, `IndexError` for
`iloc[0]` on an empty frame. The design document calls all of these
`SchemaError`. -/
def find_highest_protein_cereal (t : CerealTable) : Except Err Value :=
  match colIndex t "protein" with
  | none => .error (.keyError "protein")
  | some pj =>
    match colIndex t "calories" with
    | none => .error (.keyError "calories")
    | some cj =>
      match rowKeys pj cj t.rows with
      | none => .error .typeError
      | some keys =>
        match (sortedRowOrder keys).head? with
        | none => .error .indexError
        | some i =>
          match colIndex t "name" with
          | none => .error (.keyError "name")
          | some nj =>
            match t.rows[i]? >>= fun r => r[nj]? with
            | none => .error (.keyError "name")
            | some v => .ok v

/-- The `"protein"` key of one row (v0 Selector). -/
def v0_rowKey (pj : Nat) (r : List Value) : Option Int := do
  asNum (← r[pj]?)

/-- `"protein"` keys of all rows (v0 Selector). -/
def v0_rowKeys (pj : Nat) : List (List Value) → Option (List Int)
  | [] => some []
  | r :: rs =>
    match v0_rowKey pj r, v0_rowKeys pj rs with
    | some k, some ks => some (k :: ks)
    | _, _ => none

/-- Permutation of the row indices produced by
`df.sort_values("protein", ascending=False)` in `v0_pipeline.py`. numpy
quicksort does not promise stability, so the order among protein ties is
unspecified; the model fixes the stable order, which agrees with the code
on every input whose maximum is attained by a single row (the situation
claim C10 is about). -/
def v0_sortedRowOrder (keys : List Int) : List Nat :=
  (List.range keys.length).mergeSort (idxLE intGE 0 keys)

/-- `find_highest_protein_cereal` from `v0_pipeline.py`:

    sorted_df = df.sort_values("protein", ascending=False)
    return sorted_df.iloc[0]["name"]
-/
def v0_find_highest_protein_cereal (t : CerealTable) : Except Err Value :=
  match colIndex t "protein" with
  | none => .error (.keyError "protein")
  | some pj =>
    match v0_rowKeys pj t.rows with
    | none => .error .typeError
    | some keys =>
      match (v0_sortedRowOrder keys).head? with
      | none => .error .indexError
      | some i =>
        match colIndex t "name" with
        | none => .error (.keyError "name")
        | some nj =>
          match t.rows[i]? >>= fun r => r[nj]? with
          | none => .error (.keyError "name")
          | some v => .ok v

/-- Index of the row the specification designates: the first row whose
key is greatest, i.e. maximum protein, ties broken by maximum calories,
remaining ties broken by first occurrence. -/
def bestRowIdx (keys : List (Int × Int)) : Option Nat :=
  keys.findIdx? (fun k => keys.all (fun k2 => keyGE k k2))

/-- Index of the row the v0 sort designates: the first row of maximum
protein. -/
def v0_bestRowIdx (keys : List Int) : Option Nat :=
  keys.findIdx? (fun k => keys.all (fun k2 => intGE k k2))

/-- The straight-line orchestrator composition of Normalizer and
Selector (`best_preworkout_cereal_pipeline` without the Loader and the
Reporter): a raised exception aborts the run and propagates. -/
def normalize_then_find (t : CerealTable) : Except Err Value :=
  match (preprocess_cereals t).2 with
  | .error e => .error e
  | .ok u => find_highest_protein_cereal u

/-- The fixture of `test_find_highest_protein_cereal` in
`test_pipeline.py` (Scenario A of the design document). -/
def cerealsA : CerealTable :=
  ⟨["name", "protein", "calories"],
    [[.str "Bran", .num 4, .num 70],
     [.str "Bran - no added sugars", .num 4, .num 50],
     [.str "Honey-comb", .num 1, .num 110]]⟩

/-- A table exercising both tie-breaks of the Selector: protein ties on 5,
calories break it to the two rows with 30, first occurrence picks `C`. -/
def cerealsTies : CerealTable :=
  ⟨["name", "protein", "calories"],
    [[.str "A", .num 3, .num 10],
     [.str "B", .num 5, .num 20],
     [.str "C", .num 5, .num 30],
     [.str "D", .num 5, .num 30]]⟩

/-- A table whose maximum protein is attained by exactly one row. -/
def cerealsUnique : CerealTable :=
  ⟨["name", "protein", "calories"],
    [[.str "A", .num 3, .num 10],
     [.str "B", .num 5, .num 20],
     [.str "C", .num 4, .num 99]]⟩

/-- A table with case-variant duplicate headers `name` and `NAME`; used
to separate the renaming property from its amended form. -/
def cerealsDup : CerealTable :=
  ⟨["name", "NAME"], [[.str "a", .str "b"]]⟩

/-! ### Character-level facts about the Python case maps -/

theorem char_toNat_ofNat {n : Nat} (h : n < 55296) : (Char.ofNat n).toNat = n := by
  rw [Char.ofNat, dif_pos (Or.inl h)]
  rfl

theorem char_toLower_toLower (c : Char) :
    Char.toLower (Char.toLower c) = Char.toLower c := by
  simp only [Char.toLower]
  by_cases h : 65 ≤ c.toNat ∧ c.toNat ≤ 90
  · rw [if_pos h, if_neg]
    rw [char_toNat_ofNat (by omega)]
    omega
  · rw [if_neg h, if_neg h]

theorem char_toLower_toUpper (c : Char) :
    Char.toLower (Char.toUpper c) = Char.toLower c := by
  simp only [Char.toLower, Char.toUpper]
  by_cases h : 97 ≤ c.toNat ∧ c.toNat ≤ 122
  · rw [if_pos h]
    have h1 : (Char.ofNat (c.toNat - 32)).toNat = c.toNat - 32 :=
      char_toNat_ofNat (by omega)
    rw [if_pos (by rw [h1]; omega), if_neg (by omega), h1]
    have h2 : c.toNat - 32 + 32 = c.toNat := by omega
    rw [h2, Char.ofNat_toNat]
  · rw [if_neg h]

theorem pyLower_pyLower (s : String) : pyLower (pyLower s) = pyLower s := by
  simp only [pyLower, List.map_map]
  congr 1
  apply List.map_congr_left
  intro c _
  exact char_toLower_toLower c

theorem pyLower_pyUpper (s : String) : pyLower (pyUpper s) = pyLower s := by
  simp only [pyLower, pyUpper, List.map_map]
  congr 1
  apply List.map_congr_left
  intro c _
  exact char_toLower_toUpper c

theorem pyLower_name : pyLower "name" = "name" := by decide

theorem pyLower_brand : pyLower "brand" = "brand" := by decide

/-! ### Head of the stable descending sort -/

theorem idxLE_trans {κ : Type} (kge : κ → κ → Bool) (d : κ) (keys : List κ)
    (htrans : ∀ a b c, kge a b = true → kge b c = true → kge a c = true)
    (i j k : Nat) (h1 : idxLE kge d keys i j = true)
    (h2 : idxLE kge d keys j k = true) : idxLE kge d keys i k = true := by
  simp only [idxLE, Bool.and_eq_true, Bool.or_eq_true, Bool.not_eq_true',
    decide_eq_true_eq] at *
  obtain ⟨hij, h1b⟩ := h1
  obtain ⟨hjk, h2b⟩ := h2
  refine ⟨htrans _ _ _ hij hjk, ?_⟩
  by_cases hki : kge (keys.getD k d) (keys.getD i d) = true
  · right
    have hkj : kge (keys.getD k d) (keys.getD j d) = true := htrans _ _ _ hki hij
    have hji : kge (keys.getD j d) (keys.getD i d) = true := htrans _ _ _ hjk hki
    rcases h1b with h1b | h1b
    · rw [h1b] at hji; exact absurd hji (by simp)
    · rcases h2b with h2b | h2b
      · rw [h2b] at hkj; exact absurd hkj (by simp)
      · omega
  · left
    exact Bool.eq_false_iff.mpr hki

theorem idxLE_total {κ : Type} (kge : κ → κ → Bool) (d : κ) (keys : List κ)
    (htotal : ∀ a b, kge a b = true ∨ kge b a = true)
    (i j : Nat) : idxLE kge d keys i j || idxLE kge d keys j i := by
  simp only [idxLE, Bool.or_eq_true, Bool.and_eq_true, Bool.not_eq_true',
    decide_eq_true_eq]
  by_cases hij : kge (keys.getD i d) (keys.getD j d) = true
  · by_cases hji : kge (keys.getD j d) (keys.getD i d) = true
    · rcases Nat.le_total i j with h | h
      · exact Or.inl ⟨hij, Or.inr h⟩
      · exact Or.inr ⟨hji, Or.inr h⟩
    · exact Or.inl ⟨hij, Or.inl (Bool.eq_false_iff.mpr hji)⟩
  · rcases htotal (keys.getD i d) (keys.getD j d) with h | h
    · exact absurd h hij
    · exact Or.inr ⟨h, Or.inl (Bool.eq_false_iff.mpr hij)⟩

theorem idxLE_refl {κ : Type} (kge : κ → κ → Bool) (d : κ) (keys : List κ)
    (htotal : ∀ a b, kge a b = true ∨ kge b a = true)
    (i : Nat) : idxLE kge d keys i i = true := by
  simp only [idxLE, Bool.and_eq_true, Bool.or_eq_true, decide_eq_true_eq]
  rcases htotal (keys.getD i d) (keys.getD i d) with h | h <;>
    exact ⟨h, Or.inr (Nat.le_refl i)⟩

/-- The first row index of a stable descending sort by `keys` is the
first index whose key is greater-or-equal to every key. -/
theorem head_mergeSort_eq_findIdx {κ : Type} (kge : κ → κ → Bool) (d : κ)
    (htrans : ∀ a b c, kge a b = true → kge b c = true → kge a c = true)
    (htotal : ∀ a b, kge a b = true ∨ kge b a = true)
    (keys : List κ) (hne : keys ≠ []) :
    ((List.range keys.length).mergeSort (idxLE kge d keys)).head? =
      keys.findIdx? (fun k => keys.all (fun k2 => kge k k2)) := by
  set le := idxLE kge d keys with hle
  set L := (List.range keys.length).mergeSort le with hLdef
  have hlen : L.length = keys.length := by
    rw [hLdef, List.length_mergeSort, List.length_range]
  have hLne : L ≠ [] := by
    intro h
    rw [h] at hlen
    exact hne (List.eq_nil_of_length_eq_zero hlen.symm)
  obtain ⟨h0, rest, hL⟩ := List.exists_cons_of_ne_nil hLne
  have hpair : L.Pairwise (fun i j => le i j = true) := by
    have := @List.sorted_mergeSort Nat le
      (idxLE_trans kge d keys htrans)
      (fun a b => by
        have := idxLE_total kge d keys htotal a b
        simpa using this)
      (List.range keys.length)
    simpa [hLdef] using this
  have hmemL : ∀ j, j ∈ L ↔ j < keys.length := by
    intro j
    rw [hLdef, List.mem_mergeSort, List.mem_range]
  have hh0 : ∀ j, j < keys.length → le h0 j = true := by
    intro j hj
    rcases List.eq_or_mem_of_mem_cons (hL ▸ (hmemL j).mpr hj) with h | h
    · subst h
      exact idxLE_refl kge d keys htotal j
    · rw [hL] at hpair
      exact (List.pairwise_cons.mp hpair).1 j h
  have hh0lt : h0 < keys.length := by
    rw [← hmemL, hL]
    exact List.mem_cons_self h0 rest
  have hgetD : ∀ j (hj : j < keys.length), keys.getD j d = keys[j] := by
    intro j hj
    simp [List.getD_eq_getElem?_getD, List.getElem?_eq_getElem hj]
  have hhead : L.head? = some h0 := by rw [hL]; rfl
  rw [hhead]
  symm
  rw [List.findIdx?_eq_some_iff_getElem]
  refine ⟨hh0lt, ?_, ?_⟩
  · rw [List.all_eq_true]
    intro k2 hk2
    obtain ⟨j, hj, rfl⟩ := List.mem_iff_getElem.mp hk2
    have := hh0 j hj
    rw [hle] at this
    simp only [idxLE, Bool.and_eq_true] at this
    rw [hgetD h0 hh0lt, hgetD j hj] at this
    exact this.1
  · intro j hji hp
    have hj : j < keys.length := by omega
    rw [List.all_eq_true] at hp
    have hjh0 : kge keys[j] keys[h0] = true :=
      hp keys[h0] (List.getElem_mem hh0lt)
    have := hh0 j hj
    rw [hle] at this
    simp only [idxLE, Bool.and_eq_true, Bool.or_eq_true, Bool.not_eq_true',
      decide_eq_true_eq] at this
    rw [hgetD h0 hh0lt, hgetD j hj] at this
    rcases this.2 with h | h
    · rw [hjh0] at h
      exact absurd h (by simp)
    · omega

theorem keyGE_trans (a b c : Int × Int) (h1 : keyGE a b = true)
    (h2 : keyGE b c = true) : keyGE a c = true := by
  simp only [keyGE, Bool.or_eq_true, Bool.and_eq_true, decide_eq_true_eq] at *
  omega

theorem keyGE_total (a b : Int × Int) : keyGE a b = true ∨ keyGE b a = true := by
  simp only [keyGE, Bool.or_eq_true, Bool.and_eq_true, decide_eq_true_eq]
  omega

theorem intGE_trans (a b c : Int) (h1 : intGE a b = true)
    (h2 : intGE b c = true) : intGE a c = true := by
  simp only [intGE, decide_eq_true_eq] at *
  omega

theorem intGE_total (a b : Int) : intGE a b = true ∨ intGE b a = true := by
  simp only [intGE, decide_eq_true_eq]
  omega

/-- The first row of the v3 sort is the best row of the specification. -/
theorem head_sortedRowOrder (keys : List (Int × Int)) (hne : keys ≠ []) :
    (sortedRowOrder keys).head? = bestRowIdx keys :=
  head_mergeSort_eq_findIdx keyGE (0, 0) keyGE_trans keyGE_total keys hne

/-- The first row of the v0 sort is the first row of maximum protein. -/
theorem head_v0_sortedRowOrder (keys : List Int) (hne : keys ≠ []) :
    (v0_sortedRowOrder keys).head? = v0_bestRowIdx keys :=
  head_mergeSort_eq_findIdx intGE 0 intGE_trans intGE_total keys hne

theorem rowKeys_length {pj cj : Nat} :
    ∀ {rows : List (List Value)} {keys : List (Int × Int)},
      rowKeys pj cj rows = some keys → keys.length = rows.length := by
  intro rows
  induction rows with
  | nil =>
    intro keys h
    simp only [rowKeys, Option.some.injEq] at h
    subst h
    rfl
  | cons r rs ih =>
    intro keys h
    simp only [rowKeys] at h
    cases hk : rowKey pj cj r <;> rw [hk] at h
    · exact absurd h (by simp)
    · cases hks : rowKeys pj cj rs <;> rw [hks] at h
      · exact absurd h (by simp)
      · simp only [Option.some.injEq] at h
        subst h
        simp [ih hks]

theorem v0_rowKeys_length {pj : Nat} :
    ∀ {rows : List (List Value)} {keys : List Int},
      v0_rowKeys pj rows = some keys → keys.length = rows.length := by
  intro rows
  induction rows with
  | nil =>
    intro keys h
    simp only [v0_rowKeys, Option.some.injEq] at h
    subst h
    rfl
  | cons r rs ih =>
    intro keys h
    simp only [v0_rowKeys] at h
    cases hk : v0_rowKey pj r <;> rw [hk] at h
    · exact absurd h (by simp)
    · cases hks : v0_rowKeys pj rs <;> rw [hks] at h
      · exact absurd h (by simp)
      · simp only [Option.some.injEq] at h
        subst h
        simp [ih hks]

/-- Computation of the v3 Selector on a table satisfying its
precondition: the result is the `name` cell of the row the specification
designates. -/
theorem find_eq_ok (t : CerealTable) (pj cj nj b : Nat)
    (keys : List (Int × Int)) (r : List Value) (v : Value)
    (hp : colIndex t "protein" = some pj)
    (hc : colIndex t "calories" = some cj)
    (hn : colIndex t "name" = some nj)
    (hk : rowKeys pj cj t.rows = some keys)
    (hne : t.rows ≠ [])
    (hb : bestRowIdx keys = some b)
    (hr : t.rows[b]? = some r)
    (hv : r[nj]? = some v) :
    find_highest_protein_cereal t = .ok v := by
  have hkne : keys ≠ [] := by
    intro h
    have := rowKeys_length hk
    rw [h] at this
    exact hne (List.eq_nil_of_length_eq_zero this.symm)
  have hhead : (sortedRowOrder keys).head? = some b := by
    rw [head_sortedRowOrder keys hkne, hb]
  simp only [find_highest_protein_cereal, hp, hc, hk, hhead, hn, hr, hv,
    Option.bind_eq_bind, Option.some_bind]

/-- Computation of the v0 Selector on a table satisfying its
precondition, given the index its sort puts first. -/
theorem v0_find_eq_ok (t : CerealTable) (pj nj b : Nat)
    (keys0 : List Int) (r : List Value) (v : Value)
    (hp : colIndex t "protein" = some pj)
    (hn : colIndex t "name" = some nj)
    (hk0 : v0_rowKeys pj t.rows = some keys0)
    (hne : t.rows ≠ [])
    (hb0 : v0_bestRowIdx keys0 = some b)
    (hr : t.rows[b]? = some r)
    (hv : r[nj]? = some v) :
    v0_find_highest_protein_cereal t = .ok v := by
  have hkne : keys0 ≠ [] := by
    intro h
    have := v0_rowKeys_length hk0
    rw [h] at this
    exact hne (List.eq_nil_of_length_eq_zero this.symm)
  have hhead : (v0_sortedRowOrder keys0).head? = some b := by
    rw [head_v0_sortedRowOrder keys0 hkne, hb0]
  simp only [v0_find_highest_protein_cereal, hp, hk0, hhead, hn, hr, hv,
    Option.bind_eq_bind, Option.some_bind]

theorem v0_rowKey_of_rowKey {pj cj : Nat} {r : List Value} {k : Int × Int}
    (h : rowKey pj cj r = some k) : v0_rowKey pj r = some k.1 := by
  simp only [rowKey, v0_rowKey, Option.bind_eq_bind] at h ⊢
  cases hpv : r[pj]? with
  | none => rw [hpv] at h; simp at h
  | some pv =>
    rw [hpv] at h
    simp only [Option.some_bind] at h ⊢
    cases hcv : r[cj]? with
    | none => rw [hcv] at h; simp at h
    | some cv =>
      rw [hcv] at h
      simp only [Option.some_bind] at h
      cases hap : asNum pv with
      | none => rw [hap] at h; simp at h
      | some p =>
        rw [hap] at h
        simp only [Option.some_bind] at h
        cases hac : asNum cv with
        | none => rw [hac] at h; simp at h
        | some c =>
          rw [hac] at h
          simp only [Option.some_bind, Option.pure_def, Option.some.injEq] at h
          simp [← h]

theorem v0_rowKeys_map_fst {pj cj : Nat} :
    ∀ {rows : List (List Value)} {keys : List (Int × Int)},
      rowKeys pj cj rows = some keys →
        v0_rowKeys pj rows = some (keys.map Prod.fst) := by
  intro rows
  induction rows with
  | nil =>
    intro keys h
    simp only [rowKeys, Option.some.injEq] at h
    subst h
    rfl
  | cons r rs ih =>
    intro keys h
    simp only [rowKeys] at h
    cases hk : rowKey pj cj r <;> rw [hk] at h
    · exact absurd h (by simp)
    · cases hks : rowKeys pj cj rs <;> rw [hks] at h
      · exact absurd h (by simp)
      · simp only [Option.some.injEq] at h
        subst h
        simp [v0_rowKeys, v0_rowKey_of_rowKey hk, ih hks]

/-- When exactly one row attains the maximum protein, the first row of
the protein-only sort coincides with the first row of the
(protein, calories) sort. -/
theorem v0_bestRowIdx_eq_of_unique (keys : List (Int × Int)) (b : Nat)
    (hb : bestRowIdx keys = some b)
    (huniq : ∀ (i j : Nat) (hi : i < keys.length) (hj : j < keys.length),
      (∀ k ∈ keys, k.1 ≤ keys[i].1) → (∀ k ∈ keys, k.1 ≤ keys[j].1) → i = j) :
    v0_bestRowIdx (keys.map Prod.fst) = some b := by
  rw [bestRowIdx, List.findIdx?_eq_some_iff_getElem] at hb
  obtain ⟨hblt, hbp, hbmin⟩ := hb
  have hbmax : ∀ k ∈ keys, k.1 ≤ keys[b].1 := by
    intro k hk
    rw [List.all_eq_true] at hbp
    have := hbp k hk
    simp only [keyGE, Bool.or_eq_true, Bool.and_eq_true, decide_eq_true_eq] at this
    omega
  rw [v0_bestRowIdx, List.findIdx?_eq_some_iff_getElem]
  have hblt2 : b < (keys.map Prod.fst).length := by
    rw [List.length_map]
    exact hblt
  refine ⟨hblt2, ?_, ?_⟩
  · rw [List.all_eq_true]
    intro k0 hk0
    obtain ⟨k, hk, rfl⟩ := List.mem_map.mp hk0
    simp only [intGE, List.getElem_map, decide_eq_true_eq]
    exact hbmax k hk
  · intro j hjb hp0
    have hj : j < keys.length := by
      have := hblt
      omega
    have hjmax : ∀ k ∈ keys, k.1 ≤ keys[j].1 := by
      intro k hk
      rw [List.all_eq_true] at hp0
      have := hp0 k.1 (List.mem_map.mpr ⟨k, hk, rfl⟩)
      simp only [intGE, List.getElem_map, decide_eq_true_eq] at this
      exact this
    have := huniq j b hj hblt hjmax hbmax
    omega

/-! ### Normalizer branch analysis -/

theorem contains_iff_mem {l : List String} {a : String} :
    l.contains a = true ↔ a ∈ l := by
  simp [List.contains, List.elem_eq_mem]

theorem preprocess_of_name {t : CerealTable}
    (h : (t.cols.map pyLower).contains "name" = true) :
    preprocess_cereals t = (lowerColumns t, .ok (lowerColumns t)) := by
  rw [preprocess_cereals]
  simp only [lowerColumns] at h ⊢
  rw [if_pos h]

theorem preprocess_of_brand {t : CerealTable}
    (hn : (t.cols.map pyLower).contains "name" = false)
    (hb : (t.cols.map pyLower).contains "brand" = true) :
    preprocess_cereals t =
      (lowerColumns t, .ok (renameColumns (lowerColumns t) "brand" "name")) := by
  rw [preprocess_cereals]
  simp only [lowerColumns] at hn hb ⊢
  rw [if_neg (by rw [hn]; exact Bool.false_ne_true), if_pos hb]

theorem preprocess_of_missing {t : CerealTable}
    (hn : (t.cols.map pyLower).contains "name" = false)
    (hb : (t.cols.map pyLower).contains "brand" = false) :
    preprocess_cereals t =
      (lowerColumns t, .error (.valueError "df does not contain column name")) := by
  rw [preprocess_cereals]
  simp only [lowerColumns] at hn hb ⊢
  rw [if_neg (by rw [hn]; exact Bool.false_ne_true),
    if_neg (by rw [hb]; exact Bool.false_ne_true)]

theorem preprocess_fst (t : CerealTable) :
    (preprocess_cereals t).1 = lowerColumns t := by
  rw [preprocess_cereals]
  split
  · rfl
  · split <;> rfl

/-- Every success of the Normalizer yields a table whose headers are
already lowercase and contain `name`. -/
theorem preprocess_ok_inv {t u : CerealTable}
    (h : (preprocess_cereals t).2 = .ok u) :
    (∀ c ∈ u.cols, pyLower c = c) ∧ u.cols.contains "name" = true := by
  cases hn : (t.cols.map pyLower).contains "name" with
  | true =>
    rw [preprocess_of_name hn] at h
    simp only [Except.ok.injEq] at h
    subst h
    refine ⟨?_, hn⟩
    intro c hc
    simp only [lowerColumns] at hc
    obtain ⟨c0, _, rfl⟩ := List.mem_map.mp hc
    exact pyLower_pyLower c0
  | false =>
    cases hb : (t.cols.map pyLower).contains "brand" with
    | true =>
      rw [preprocess_of_brand hn hb] at h
      simp only [Except.ok.injEq] at h
      subst h
      constructor
      · intro c hc
        simp only [renameColumns, lowerColumns] at hc
        obtain ⟨c1, hc1, rfl⟩ := List.mem_map.mp hc
        obtain ⟨c0, _, rfl⟩ := List.mem_map.mp hc1
        by_cases hbr : pyLower c0 = "brand"
        · rw [if_pos hbr]
          exact pyLower_name
        · rw [if_neg hbr]
          exact pyLower_pyLower c0
      · rw [contains_iff_mem]
        have hmem : "brand" ∈ t.cols.map pyLower := contains_iff_mem.mp hb
        simp only [renameColumns, lowerColumns]
        rw [List.mem_map]
        exact ⟨"brand", hmem, by rw [if_pos rfl]⟩
    | false =>
      rw [preprocess_of_missing hn hb] at h
      exact absurd h (by simp)

theorem map_pyLower_fixed {l : List String} (h : ∀ c ∈ l, pyLower c = c) :
    l.map pyLower = l := by
  rw [show l.map pyLower = l.map id from List.map_congr_left fun a ha => h a ha,
    List.map_id]

/-- The Normalizer only looks at the lowercased headers, so uppercasing
all headers beforehand changes nothing. -/
theorem preprocess_upperColumns (t : CerealTable) :
    preprocess_cereals (upperColumns t) = preprocess_cereals t := by
  have hlow : lowerColumns (upperColumns t) = lowerColumns t := by
    cases t with
    | mk cols rows =>
      simp only [lowerColumns, upperColumns, List.map_map]
      congr 1
      apply List.map_congr_left
      intro c _
      exact pyLower_pyUpper c
  unfold preprocess_cereals
  rw [hlow]

/-! ### The claims -/

/-- C1: for every non-empty normalized CerealTable with a `name` column
and numeric `protein` and `calories` columns, `find_highest_protein_cereal`
returns the `name` value of the row with maximum `protein`, ties broken by
maximum `calories`, remaining ties broken by first occurrence in the table
(`bestRowIdx` is exactly that row index). -/
theorem C1_selector_contract (t : CerealTable) (pj cj nj b : Nat)
    (keys : List (Int × Int)) (r : List Value) (v : Value)
    (hp : colIndex t "protein" = some pj)
    (hc : colIndex t "calories" = some cj)
    (hn : colIndex t "name" = some nj)
    (hk : rowKeys pj cj t.rows = some keys)
    (hne : t.rows ≠ [])
    (hb : bestRowIdx keys = some b)
    (hr : t.rows[b]? = some r)
    (hv : r[nj]? = some v) :
    find_highest_protein_cereal t = .ok v :=
  find_eq_ok t pj cj nj b keys r v hp hc hn hk hne hb hr hv

theorem C1_selector_contract_witness :
    find_highest_protein_cereal cerealsTies = .ok (.str "C") :=
  C1_selector_contract cerealsTies 1 2 0 2
    [(3, 10), (5, 20), (5, 30), (5, 30)]
    [.str "C", .num 5, .num 30] (.str "C")
    rfl rfl rfl rfl (by decide) (by decide) rfl rfl

/-- C2: on the fixture of `test_find_highest_protein_cereal` the v3
Selector returns `"Bran"`, the protein-tied row with the larger calorie
count — `sort_values(["protein", "calories"], ascending=False)` sorts
calories descending. The test of the repository asserts
`"Bran - no added sugars"`, so the v3 code contradicts the test suite. -/
theorem C2_scenarioA_code_result :
    find_highest_protein_cereal cerealsA = .ok (.str "Bran") :=
  find_eq_ok cerealsA 1 2 0 0 [(4, 70), (4, 50), (1, 110)]
    [.str "Bran", .num 4, .num 70] (.str "Bran")
    rfl rfl rfl rfl (by decide) (by decide) rfl rfl

/-- C3: the Normalizer raises its error precisely when the lowercased
headers contain neither `name` nor `brand`; every success yields a table
with lowercase headers containing `name`. -/
theorem C3_normalizer_schema_error_iff (t : CerealTable) :
    ((preprocess_cereals t).2.isOk = false ↔
      ((t.cols.map pyLower).contains "name" = false ∧
        (t.cols.map pyLower).contains "brand" = false)) ∧
    ∀ u, (preprocess_cereals t).2 = .ok u →
      (∀ c ∈ u.cols, pyLower c = c) ∧ u.cols.contains "name" = true := by
  refine ⟨⟨?_, ?_⟩, fun u h => preprocess_ok_inv h⟩
  · intro herr
    cases hn : (t.cols.map pyLower).contains "name" with
    | true =>
      rw [preprocess_of_name hn] at herr
      simp [Except.isOk, Except.toBool] at herr
    | false =>
      cases hb : (t.cols.map pyLower).contains "brand" with
      | true =>
        rw [preprocess_of_brand hn hb] at herr
        simp [Except.isOk, Except.toBool] at herr
      | false => exact ⟨rfl, rfl⟩
  · rintro ⟨hn, hb⟩
    rw [preprocess_of_missing hn hb]
    rfl

theorem C3_normalizer_schema_error_iff_witness :
    (preprocess_cereals ⟨["Foo"], []⟩).2.isOk = false :=
  (C3_normalizer_schema_error_iff ⟨["Foo"], []⟩).1.mpr (by decide)

/-- C4: on a table with zero rows the Selector raises (an `IndexError`
from `iloc[0]`, or a `KeyError` when a sort column is missing too; the
design document names both `SchemaError`): it never returns a value. -/
theorem C4_selector_empty_error (t : CerealTable) (h : t.rows = []) :
    (find_highest_protein_cereal t).isOk = false := by
  cases hp : colIndex t "protein" with
  | none => simp [find_highest_protein_cereal, hp, Except.isOk, Except.toBool]
  | some pj =>
    cases hc : colIndex t "calories" with
    | none => simp [find_highest_protein_cereal, hp, hc, Except.isOk, Except.toBool]
    | some cj =>
      have hk : rowKeys pj cj t.rows = some [] := by rw [h]; rfl
      have hso : (sortedRowOrder ([] : List (Int × Int))).head? = none := by
        simp [sortedRowOrder]
      simp [find_highest_protein_cereal, hp, hc, hk, hso, Except.isOk, Except.toBool]

theorem C4_selector_empty_error_witness :
    (find_highest_protein_cereal ⟨["name", "protein", "calories"], []⟩).isOk
      = false :=
  C4_selector_empty_error ⟨["name", "protein", "calories"], []⟩ rfl

/-- C5: the Normalizer is idempotent — on any table it has successfully
normalized it succeeds again, changes nothing, and the in-place header
mutation is a no-op. -/
theorem C5_normalizer_idempotent (t u : CerealTable)
    (h : (preprocess_cereals t).2 = .ok u) :
    preprocess_cereals u = (u, .ok u) := by
  obtain ⟨hlow, hname⟩ := preprocess_ok_inv h
  have hmap : u.cols.map pyLower = u.cols := map_pyLower_fixed hlow
  have hfix : lowerColumns u = u := by
    rw [lowerColumns, hmap]
  have hname2 : (u.cols.map pyLower).contains "name" = true := by
    rw [hmap]
    exact hname
  rw [preprocess_of_name hname2, hfix]

theorem C5_normalizer_idempotent_witness :
    preprocess_cereals ⟨["name"], []⟩ = (⟨["name"], []⟩, .ok ⟨["name"], []⟩) :=
  C5_normalizer_idempotent ⟨["NAME"], []⟩ ⟨["name"], []⟩ rfl

/-- C6 counterexample: for the table with headers `name` and `NAME`,
renaming `name` to `brand` and normalizing leaves a `brand` column that
the normalization of the original does not have, so the two outputs are
not equal in column contents. -/
theorem C6_rename_property_counterexample :
    (preprocess_cereals (renameColumns cerealsDup "name" "brand")).2 =
        .ok ⟨["brand", "name"], [[.str "a", .str "b"]]⟩ ∧
      (preprocess_cereals cerealsDup).2 =
        .ok ⟨["name", "name"], [[.str "a", .str "b"]]⟩ ∧
      colIndex ⟨["brand", "name"], [[.str "a", .str "b"]]⟩ "brand" = some 0 ∧
      colIndex ⟨["name", "name"], [[.str "a", .str "b"]]⟩ "brand" = none :=
  ⟨rfl, rfl, rfl, rfl⟩

/-- C6 (amended): for every CerealTable with a `name` column in which no
other column lowercases to `name` or `brand`, normalizing the table with
`name` renamed to `brand` returns the same table as normalizing the
original. -/
theorem C6_rename_property_amended (t : CerealTable)
    (hname : "name" ∈ t.cols)
    (hother : ∀ c ∈ t.cols,
      c = "name" ∨ (pyLower c ≠ "name" ∧ pyLower c ≠ "brand")) :
    (preprocess_cereals (renameColumns t "name" "brand")).2 =
      (preprocess_cereals t).2 := by
  have hn2 : (t.cols.map pyLower).contains "name" = true := by
    rw [contains_iff_mem]
    exact List.mem_map.mpr ⟨"name", hname, pyLower_name⟩
  have hn1 : ((renameColumns t "name" "brand").cols.map pyLower).contains
      "name" = false := by
    rw [Bool.eq_false_iff]
    intro hcon
    rw [contains_iff_mem] at hcon
    obtain ⟨c1, hc1, hc1e⟩ := List.mem_map.mp hcon
    simp only [renameColumns] at hc1
    obtain ⟨c0, hc0, rfl⟩ := List.mem_map.mp hc1
    by_cases h0 : c0 = "name"
    · rw [if_pos h0, pyLower_brand] at hc1e
      exact absurd hc1e (by decide)
    · rw [if_neg h0] at hc1e
      rcases hother c0 hc0 with h | h
      · exact h0 h
      · exact h.1 hc1e
  have hb1 : ((renameColumns t "name" "brand").cols.map pyLower).contains
      "brand" = true := by
    rw [contains_iff_mem]
    refine List.mem_map.mpr ⟨"brand", ?_, pyLower_brand⟩
    simp only [renameColumns]
    exact List.mem_map.mpr ⟨"name", hname, by rw [if_pos rfl]⟩
  rw [preprocess_of_name hn2, preprocess_of_brand hn1 hb1]
  simp only
  congr 1
  cases t with
  | mk cols rows =>
    simp only [renameColumns, lowerColumns, List.map_map]
    congr 1
    apply List.map_congr_left
    intro c hc
    simp only [Function.comp]
    by_cases h0 : c = "name"
    · rw [if_pos h0, pyLower_brand, if_pos rfl, h0, pyLower_name]
    · rw [if_neg h0]
      rcases hother c hc with h | h
      · exact absurd h h0
      · rw [if_neg h.2]

theorem C6_rename_property_amended_witness :
    (preprocess_cereals
        (renameColumns ⟨["name", "protein"], []⟩ "name" "brand")).2 =
      (preprocess_cereals ⟨["name", "protein"], []⟩).2 :=
  C6_rename_property_amended ⟨["name", "protein"], []⟩ (by decide) (by decide)

/-- C7: uppercasing all column headers before the Normalizer-plus-Selector
pipeline yields the same result as running it on the original table. -/
theorem C7_case_insensitive (t : CerealTable) :
    normalize_then_find (upperColumns t) = normalize_then_find t := by
  unfold normalize_then_find
  rw [preprocess_upperColumns]

/-- C8: when the lowercased headers contain both `name` and `brand`, the
Normalizer performs no rename: its output is exactly the input with
lowercased headers, so `brand` keeps its name, its contents and its
position, and the order of all columns is preserved. -/
theorem C8_no_rename_when_both (t : CerealTable)
    (hname : (t.cols.map pyLower).contains "name" = true)
    (hbrand : (t.cols.map pyLower).contains "brand" = true) :
    preprocess_cereals t = (lowerColumns t, .ok (lowerColumns t)) :=
  preprocess_of_name hname

theorem C8_no_rename_when_both_witness :
    preprocess_cereals ⟨["NAME", "BRAND"], [[.str "x", .str "y"]]⟩ =
      (⟨["name", "brand"], [[.str "x", .str "y"]]⟩,
        .ok ⟨["name", "brand"], [[.str "x", .str "y"]]⟩) :=
  C8_no_rename_when_both ⟨["NAME", "BRAND"], [[.str "x", .str "y"]]⟩
    (by decide) (by decide)

/-- C9: the Normalizer failure is not atomic — whenever it raises, the
table object of the caller has already had all its column headers
lowercased in place (the first component of the model is the final state
of that object). -/
theorem C9_mutation_on_error (t : CerealTable) (e : Err)
    (h : (preprocess_cereals t).2 = .error e) :
    (preprocess_cereals t).1 = ⟨t.cols.map pyLower, t.rows⟩ ∧
      ∀ c ∈ (preprocess_cereals t).1.cols, pyLower c = c := by
  refine ⟨by rw [preprocess_fst]; rfl, ?_⟩
  rw [preprocess_fst]
  intro c hc
  simp only [lowerColumns] at hc
  obtain ⟨c0, _, rfl⟩ := List.mem_map.mp hc
  exact pyLower_pyLower c0

theorem C9_mutation_on_error_witness :
    (preprocess_cereals ⟨["Foo"], []⟩).1 = ⟨["Foo"].map pyLower, []⟩ :=
  (C9_mutation_on_error ⟨["Foo"], []⟩
    (.valueError "df does not contain column name") rfl).1

/-- C10: on every table whose maximum protein value is attained by
exactly one row, the v0 Selector (sort by protein only) and the v3
Selector (sort by protein, then calories) return the same result. -/
theorem C10_v0_v3_agree (t : CerealTable) (pj cj nj b : Nat)
    (keys : List (Int × Int)) (r : List Value) (v : Value)
    (hp : colIndex t "protein" = some pj)
    (hc : colIndex t "calories" = some cj)
    (hn : colIndex t "name" = some nj)
    (hk : rowKeys pj cj t.rows = some keys)
    (hne : t.rows ≠ [])
    (hb : bestRowIdx keys = some b)
    (hr : t.rows[b]? = some r)
    (hv : r[nj]? = some v)
    (huniq : ∀ (i : Nat), i < keys.length → ∀ (j : Nat), j < keys.length →
      (∀ k ∈ keys, k.1 ≤ (keys.getD i (0, 0)).1) →
      (∀ k ∈ keys, k.1 ≤ (keys.getD j (0, 0)).1) → i = j) :
    v0_find_highest_protein_cereal t = find_highest_protein_cereal t := by
  have h3 := find_eq_ok t pj cj nj b keys r v hp hc hn hk hne hb hr hv
  have hk0 := v0_rowKeys_map_fst hk
  have hb0 := v0_bestRowIdx_eq_of_unique keys b hb (by
    intro i j hi hj hmi hmj
    have hgi : keys.getD i (0, 0) = keys[i] := by
      simp [List.getD_eq_getElem?_getD, List.getElem?_eq_getElem hi]
    have hgj : keys.getD j (0, 0) = keys[j] := by
      simp [List.getD_eq_getElem?_getD, List.getElem?_eq_getElem hj]
    refine huniq i hi j hj ?_ ?_
    · rw [hgi]; exact hmi
    · rw [hgj]; exact hmj)
  have h0 := v0_find_eq_ok t pj nj b (keys.map Prod.fst) r v hp hn hk0 hne
    hb0 hr hv
  rw [h0, h3]

theorem C10_v0_v3_agree_witness :
    v0_find_highest_protein_cereal cerealsUnique =
      find_highest_protein_cereal cerealsUnique :=
  C10_v0_v3_agree cerealsUnique 1 2 0 1 [(3, 10), (5, 20), (4, 99)]
    [.str "B", .num 5, .num 20] (.str "B")
    rfl rfl rfl rfl (by decide) (by decide) rfl rfl (by decide)

end CerealPipeline
